import Mathlib

/-!
# Verification of the Theia tree selection core

A shallow embedding of the browser tree-model core of this repository:

* `tree-selection-state.ts` — the `TreeSelectionState` state machine
  (`nextState`, `handleDefault`, `handleToggle`, `handleRange`,
  `selectedNodes`, `selectionRange`, `checkNoDefaultSelection`);
* `tree-selection.ts` — `TreeSelectionServiceImpl.addSelection` with its
  node-flag bookkeeping and change events;
* `tree.ts` (bundled in `tree-model.ts`) — `TreeImpl.getNode`,
  `TreeImpl.validateNode`, `TreeImpl.refresh`, `TreeImpl.fireNodeRefreshed`.

Tree nodes are identified by their unique string ids (the source compares
node objects with `===`; within one root assignment every node object has a
unique id and the flat id index maps each id to that object, so id equality
coincides with object identity).  Fallible code (`throw new Error`) is
embedded as `Except String`.
-/

set_option maxHeartbeats 1000000

namespace Theia

/-- Embedding of `TreeSelection.SelectionType` from `tree-selection.ts`. -/
inductive SelectionType where
  | DEFAULT
  | TOGGLE
  | RANGE
deriving DecidableEq, Repr

/-- Embedding of `TreeSelection` from `tree-selection.ts`: a target node (by id) plus an
optional selection type (`type?: SelectionType`); an absent type is `none`. -/
structure TreeSelection where
  node : String
  type : Option SelectionType
deriving DecidableEq, Repr

/-- A tree node: id, `SelectableTreeNode.is` (a `selected` property is
present), whether children are traversed (true for expanded expandable nodes
and for composite nodes that are not expandable at all — `pruneCollapsed`
skips children only of collapsed expandable nodes), and the ordered
children. In the mock fixture every node is selectable and every composite
is expanded. -/
inductive TreeNode where
  | mk (id : String) (selectable : Bool) (expanded : Bool) (children : List TreeNode)
deriving Repr

def TreeNode.id : TreeNode → String
  | .mk i _ _ _ => i

def TreeNode.selectable : TreeNode → Bool
  | .mk _ s _ _ => s

def TreeNode.expanded : TreeNode → Bool
  | .mk _ _ e _ => e

def TreeNode.children : TreeNode → List TreeNode
  | .mk _ _ _ c => c

mutual

/-- Modelled from the spec: `DepthFirstTreeIterator` with
`{ pruneCollapsed: true }` (`tree-iterator.ts` is not part of the sources):
depth-first pre-order over the tree, yielding each node and descending into
children unless the node is a collapsed expandable node.  Each yielded node
is paired with its `SelectableTreeNode.is` flag. -/
def preorder : TreeNode → List (String × Bool)
  | .mk i s e c => (i, s) :: (if e then preorderList c else [])

def preorderList : List TreeNode → List (String × Bool)
  | [] => []
  | n :: ns => preorder n ++ preorderList ns

end

mutual

/-- The id index built by `TreeImpl.addNode` when the root is assigned:
all ids reachable from the node via children links (regardless of
expansion). -/
def allIds : TreeNode → List String
  | .mk i _ _ c => i :: allIdsList c

def allIdsList : List TreeNode → List String
  | [] => []
  | n :: ns => allIds n ++ allIdsList ns

end

/-- Embedding of the `Tree` held by the selection state and service: `TreeImpl`'s root
(`undefined` when no root is set). -/
structure Registry where
  root : Option TreeNode

/-- The flat id index `TreeImpl.nodes` (as the list of indexed ids). -/
def Registry.index (t : Registry) : List String :=
  match t.root with
  | none => []
  | some r => allIds r

/-- Embedding of `TreeImpl.getNode`: `id !== undefined ? this.nodes[id] : undefined`. -/
def Registry.getNode (t : Registry) (id : Option String) : Option String :=
  match id with
  | none => none
  | some i => if t.index.contains i then some i else none

/-- Embedding of `TreeImpl.validateNode`: `this.getNode(!!node ? node.id : undefined)`. -/
def Registry.validateNode (t : Registry) (node : Option String) : Option String :=
  t.getNode node

/-- JavaScript `Array.prototype.indexOf`: index of the first occurrence, or
`-1` when absent. -/
def jsIndexOf (l : List String) (x : String) : Int :=
  match l.findIdx? (fun y => y == x) with
  | some i => (i : Int)
  | none => -1

/-- The collection loop of `TreeSelionState.selectionRange` (lines 175-193 of
`tree-selection-state.ts`): walk the traversal with `started`/`finished`
flags, collecting the window between the first and the second hit of the
`from`/`to` boundaries (both inclusive). -/
def collectRange (l : List (String × Bool)) (f t : String) (started : Bool) :
    List (String × Bool) :=
  match l with
  | [] => []
  | n :: rest =>
    if started then
      if n.1 == f || n.1 == t then [n]
      else n :: collectRange rest f t true
    else
      if n.1 == f || n.1 == t then n :: collectRange rest f t true
      else collectRange rest f t false

/-- Embedding of `TreeSelectionState.selectionRange(fromNode, toNode)`: guards for an
absent `fromNode`, `toNode === fromNode`, an absent root and stale
boundaries; then the pruned depth-first window, reversed when `from` occurs
after `to` in traversal order, filtered by `SelectableTreeNode.is`. -/
def selectionRange (t : Registry) (fromN : Option String) (toN : String) :
    List String :=
  match fromN with
  | none => []
  | some f =>
    if toN == f then [toN]
    else
      match t.root with
      | none => []
      | some root =>
        match t.validateNode (some toN) with
        | none => []
        | some toV =>
          match t.validateNode (some f) with
          | none => []
          | some fromV =>
            let rng := collectRange (preorder root) fromV toV false
            let ids := rng.map (·.1)
            let rng := if jsIndexOf ids fromV > jsIndexOf ids toV then rng.reverse else rng
            (rng.filter (·.2)).map (·.1)

/-- Embedding of `TreeSelectionState.checkNoDefaultSelection`: throws when any entry has
an `undefined` or `DEFAULT` type, otherwise returns the argument. -/
def checkNoDefaultSelection (selections : List TreeSelection) :
    Except String (List TreeSelection) :=
  if selections.any (fun s => s.type == none || s.type == some SelectionType.DEFAULT) then
    Except.error ("Unexpected DEFAULT selection type.")
  else
    Except.ok selections

/-- Embedding of `TreeSelectionState.handleDefault`: the new state is the single `TOGGLE`
entry for the selected node, discarding the previous stack. -/
def handleDefault (selectedNode : String) : List TreeSelection :=
  [⟨selectedNode, some SelectionType.TOGGLE⟩]

/-- The sole-selection guard of `handleToggle` (lines 70-76): the stack has
exactly one entry and it is a `TOGGLE` of the selected node. -/
def isSoleToggle (copy : List TreeSelection) (selectedNode : String) : Bool :=
  match copy with
  | [s] => s.type == some SelectionType.TOGGLE && s.node == selectedNode
  | _ => false

/-- The range-splitting loop of `handleToggle` (lines 78-97): scan the stack
top-down (the stack is bottom-first, so the recursion prefers a hit in the
tail); at the topmost `RANGE` entry whose range — computed against the entry
directly below it — contains the selected node, remove that node from the
range, turn the remainder into `TOGGLE` entries, drop the first of them (the
border, kept by the entry below), and substitute them for the `RANGE` entry.
`prev` is the node of the entry below the current head. -/
def splitTopRange (t : Registry) (selectedNode : String) (prev : Option String) :
    List TreeSelection → Option (List TreeSelection)
  | [] => none
  | s :: rest =>
    match splitTopRange t selectedNode (some s.node) rest with
    | some rest2 => some (s :: rest2)
    | none =>
      if s.type == some SelectionType.RANGE then
        let range := selectionRange t prev s.node
        if range.contains selectedNode then
          let rangeSubstitute :=
            ((range.erase selectedNode).drop 1).map
              (fun n => (⟨n, some SelectionType.TOGGLE⟩ : TreeSelection))
          some (rangeSubstitute ++ rest)
        else none
      else none

/-- The toggle-merging phase of `handleToggle` (lines 99-120): scan from the
top of the stack until the first `RANGE` entry, removing every scanned entry
that references the selected node; if nothing was removed, append a new
`TOGGLE` entry instead. -/
def mergeToggles (copy : List TreeSelection) (selectedNode : String) :
    List TreeSelection :=
  let rev := copy.reverse
  let suf := rev.takeWhile (fun s => !(s.type == some SelectionType.RANGE))
  let pre := rev.dropWhile (fun s => !(s.type == some SelectionType.RANGE))
  if suf.any (fun s => s.node == selectedNode) then
    pre.reverse ++ (suf.filter (fun s => !(s.node == selectedNode))).reverse
  else
    copy ++ [⟨selectedNode, some SelectionType.TOGGLE⟩]

/-- The body of `handleToggle` after the `checkNoDefaultSelection` guard:
the sole-selection no-op, then the range-splitting scan, then the
toggle-merging scan. -/
def handleToggleBody (t : Registry) (copy : List TreeSelection) (selectedNode : String) :
    List TreeSelection :=
  if isSoleToggle copy selectedNode then copy
  else
    match splitTopRange t selectedNode none copy with
    | some copy2 => copy2
    | none => mergeToggles copy selectedNode

/-- Embedding of `TreeSelectionState.handleToggle`. -/
def handleToggle (t : Registry) (stack : List TreeSelection) (selectedNode : String) :
    Except String (List TreeSelection) := do
  let copy ← checkNoDefaultSelection stack
  pure (handleToggleBody t copy selectedNode)

/-- The `toRemove.shift()` rule of `handleRange` (lines 128-149) on the
top-first suffix: the topmost entry matching the predicate is kept (it
anchors the range), every later matching entry is removed. -/
def keepFirstMatch (p : TreeSelection → Bool) : List TreeSelection → List TreeSelection
  | [] => []
  | s :: rest =>
    if p s then s :: rest.filter (fun x => !(p x))
    else s :: keepFirstMatch p rest

/-- The body of `TreeSelectionState.handleRange` after the
`checkNoDefaultSelection` guard: when the top of the stack is itself a
`RANGE`, pop it; otherwise remove — from the `RANGE`-free top segment of the
stack, except its topmost matching entry — every entry whose node falls in
the range from the top-of-stack node to the selected node; finally push the
new `RANGE` entry. -/
def handleRangeBody (t : Registry) (copy : List TreeSelection) (selectedNode : String) :
    List TreeSelection :=
  match copy.getLast? with
  | none => [⟨selectedNode, some SelectionType.RANGE⟩]
  | some last =>
    if last.type == some SelectionType.RANGE then
      copy.dropLast ++ [⟨selectedNode, some SelectionType.RANGE⟩]
    else
      let range := selectionRange t (some last.node) selectedNode
      let rev := copy.reverse
      let suf := rev.takeWhile (fun s => !(s.type == some SelectionType.RANGE))
      let pre := rev.dropWhile (fun s => !(s.type == some SelectionType.RANGE))
      let suf2 := keepFirstMatch (fun s => range.contains s.node) suf
      pre.reverse ++ suf2.reverse ++ [⟨selectedNode, some SelectionType.RANGE⟩]

/-- Embedding of `TreeSelectionState.handleRange` (see `handleRangeBody`). -/
def handleRange (t : Registry) (stack : List TreeSelection) (selectedNode : String) :
    Except String (List TreeSelection) := do
  let copy ← checkNoDefaultSelection stack
  pure (handleRangeBody t copy selectedNode)

/-- Embedding of `TreeSelectionState.nextState`: an absent type defaults to `DEFAULT`,
then dispatch on the type. -/
def nextState (t : Registry) (stack : List TreeSelection) (selection : TreeSelection) :
    Except String (List TreeSelection) :=
  match selection.type.getD SelectionType.DEFAULT with
  | SelectionType.DEFAULT => Except.ok (handleDefault selection.node)
  | SelectionType.TOGGLE => handleToggle t stack selection.node
  | SelectionType.RANGE => handleRange t stack selection.node

/-- The replay loop of `TreeSelectionState.selectedNodes` (lines 36-49):
walk the stack bottom-to-top with the accumulated node list and the last
seen entry; a `RANGE` entry first pops the provisional node when the last
entry was a `TOGGLE`, then appends its whole range; a `TOGGLE` entry appends
its node. -/
def selectedNodesRaw (t : Registry) :
    List TreeSelection → Option TreeSelection → List String → List String
  | [], _, acc => acc
  | s :: rest, lastSel, acc =>
    match s.type with
    | some SelectionType.RANGE =>
      let acc :=
        if lastSel.any (fun l => l.type == some SelectionType.TOGGLE) then acc.dropLast
        else acc
      selectedNodesRaw t rest (some s)
        (acc ++ selectionRange t (lastSel.map (·.node)) s.node)
    | some SelectionType.TOGGLE =>
      selectedNodesRaw t rest (some s) (acc ++ [s.node])
    | _ => selectedNodesRaw t rest (some s) acc

/-- Embedding of `Array.from(new Set(nodes).keys())`: deduplication keeping the first
occurrence of each element. -/
def dedupKeepFirst : List String → List String
  | [] => []
  | x :: xs => x :: (dedupKeepFirst xs).filter (fun y => !(y == x))

/-- Embedding of `TreeSelectionState.selectedNodes`: check the stack, replay it, reverse
the accumulated list and deduplicate keeping first occurrences. -/
def selectedNodes (t : Registry) (stack : List TreeSelection) :
    Except String (List String) := do
  let copy ← checkNoDefaultSelection stack
  pure (dedupKeepFirst (selectedNodesRaw t copy none []).reverse)

/-- Evaluation of `selectedNodes` with the (unreachable on valid stacks) error collapsed
to the empty list, for stating invariants. -/
def selNodesD (t : Registry) (stack : List TreeSelection) : List String :=
  match selectedNodes t stack with
  | Except.ok l => l
  | Except.error _ => []

/-- Apply a sequence of selections with `nextState`, starting from the empty
selection state (`new TreeSelectionState(tree)`). -/
def runActions (t : Registry) (sels : List TreeSelection) :
    Except String (List TreeSelection) :=
  sels.foldlM (fun st sel => nextState t st sel) []

/-- A leaf of the mock fixture: selectable, no children. -/
def leafN (i : String) : TreeNode := .mk i true true []

/-- Embedding of `MockTreeModel.MOCK_ROOT` from `test/mock-tree-model.ts`: every node is
selectable and every composite node is expanded. -/
def mockRoot : TreeNode :=
  .mk ("1") true true [
    .mk ("1.1") true true [leafN ("1.1.1"), leafN ("1.1.2")],
    .mk ("1.2") true true [
      .mk ("1.2.1") true true [leafN ("1.2.1.1"), leafN ("1.2.1.2")],
      leafN ("1.2.2"), leafN ("1.2.3")],
    leafN ("1.3")]

/-- The mock tree registry with `MOCK_ROOT` as its root. -/
def mockTree : Registry := ⟨some mockRoot⟩

/-- Shorthand for a `TOGGLE` selection. -/
def tog (n : String) : TreeSelection := ⟨n, some SelectionType.TOGGLE⟩

/-- Shorthand for a `RANGE` selection. -/
def rng (n : String) : TreeSelection := ⟨n, some SelectionType.RANGE⟩

/-- Shorthand for a `DEFAULT` selection. -/
def dfl (n : String) : TreeSelection := ⟨n, some SelectionType.DEFAULT⟩

/-- State of `TreeSelectionServiceImpl` from `tree-selection.ts`: the held
`TreeSelectionState` stack, the mutable `selected` flags of the tree's nodes
(a boolean per node id), and the payloads of the `onSelectionChanged` events
fired so far. -/
structure Service where
  state : List TreeSelection
  flags : String → Bool
  events : List (List String)

/-- The service right after `init()`: empty selection state; paired with a
tree whose nodes all have `selected === false` and no events fired yet. -/
def initService : Service := ⟨[], fun _ => false, []⟩

/-- Embedding of `TreeSelectionServiceImpl.difference`: all elements of
`left` not contained in `right`. -/
def difference (left right : List String) : List String :=
  left.filter (fun x => !(right.contains x))

/-- Embedding of `TreeSelectionServiceImpl.addSelection`: normalize the
argument (an absent type becomes `DEFAULT`), bail out when the node does not
validate against the tree, compute the next state, diff the old and new
selected sets, bail out when nothing changed, otherwise clear the removed
flags, set the added flags, commit the new state and fire one
`onSelectionChanged` event carrying the new selected set. -/
def addSelection (t : Registry) (svc : Service) (sel : TreeSelection) :
    Except String Service := do
  let selection : TreeSelection := ⟨sel.node, some (sel.type.getD SelectionType.DEFAULT)⟩
  match t.validateNode (some selection.node) with
  | none => pure svc
  | some _ =>
    let newState ← nextState t svc.state selection
    let oldNodes ← selectedNodes t svc.state
    let newNodes ← selectedNodes t newState
    let toUnselect := difference oldNodes newNodes
    let toSelect := difference newNodes oldNodes
    if toUnselect.isEmpty && toSelect.isEmpty then
      pure svc
    else
      let flags1 := fun n => if toUnselect.contains n then false else svc.flags n
      let flags2 := fun n => if toSelect.contains n then true else flags1 n
      pure ⟨newState, flags2, svc.events ++ [newNodes]⟩

/-- Run a sequence of `addSelection` calls against the service, starting
from the freshly initialized service. -/
def runService (t : Registry) (sels : List TreeSelection) : Except String Service :=
  sels.foldlM (addSelection t) initService

/-- Observable events of `TreeImpl`: `onChanged` and `onNodeRefreshed`
(carrying the refreshed parent's id). -/
inductive TreeEvent where
  | changed
  | nodeRefreshed (id : String)
deriving DecidableEq, Repr

/-- Embedding of `TreeImpl.fireNodeRefreshed`: fire `onNodeRefreshed(parent)`
first and `onChanged` right after it. -/
def fireNodeRefreshedTrace (parent : String) : List TreeEvent :=
  [TreeEvent.nodeRefreshed parent, TreeEvent.changed]

/-- The parent a `TreeImpl.refresh(raw?)` call operates on: the root when no
argument is given, otherwise `validateNode(raw)`. -/
def resolveParent (t : Registry) (raw : Option String) : Option String :=
  match raw with
  | none => t.root.map TreeNode.id
  | some r => t.validateNode (some r)

/-- Event trace of one `TreeImpl.refresh(raw?)` call whose child resolution
succeeds, in emission order.  The synchronous tail of `refresh` fires
`onChanged` immediately; when the parent resolves to a valid composite node
(every indexed node of this model carries a `children` property, as in the
mock fixture), the resolved children are installed afterwards by
`setChildren`, which ends with `fireNodeRefreshed(parent)` — the
`onNodeRefreshed(parent)` event followed by its accompanying `onChanged`. -/
def refreshTrace (t : Registry) (raw : Option String) : List TreeEvent :=
  match resolveParent t raw with
  | some p => [TreeEvent.changed] ++ fireNodeRefreshedTrace p
  | none => [TreeEvent.changed]

/-- Entries allowed to persist in a selection stack: `TOGGLE` and `RANGE`
(exactly the entries `checkNoDefaultSelection` accepts). -/
def validStack (stack : List TreeSelection) : Prop :=
  ∀ s ∈ stack, s.type = some SelectionType.TOGGLE ∨ s.type = some SelectionType.RANGE

instance (stack : List TreeSelection) : Decidable (validStack stack) :=
  List.decidableBAll _ stack

/-- Presence of a `DEFAULT`-like entry (an `undefined` or `DEFAULT` type),
the condition on which `checkNoDefaultSelection` throws. -/
def hasDefaultEntry (stack : List TreeSelection) : Prop :=
  ∃ s ∈ stack, s.type = none ∨ s.type = some SelectionType.DEFAULT

instance (stack : List TreeSelection) : Decidable (hasDefaultEntry stack) :=
  List.decidableBEx _ stack

/-- Bool-valued guard for the amended toggle-cancellation claim: no `RANGE`
entry of the stack has the node in the range it defines against the entry
directly below it (`prev` is the node of that entry, as in `handleToggle`
and `selectedNodes`). -/
def avoidsRanges (t : Registry) (x : String) : Option String → List TreeSelection → Bool
  | _, [] => true
  | prev, s :: rest =>
    (!(s.type == some SelectionType.RANGE) || !((selectionRange t prev s.node).contains x))
      && avoidsRanges t x (some s.node) rest

/-! ## List helpers -/

theorem mem_of_mem_takeWhile {α : Type} {p : α → Bool} {x : α} :
    ∀ {l : List α}, x ∈ l.takeWhile p → x ∈ l := by
  intro l
  induction l with
  | nil => intro h; exact absurd h (by simp [List.takeWhile])
  | cons a as ih =>
    intro h
    rw [List.takeWhile_cons] at h
    by_cases hp : p a = true
    · rw [if_pos hp] at h
      rcases List.mem_cons.mp h with h | h
      · exact h ▸ List.mem_cons_self a as
      · exact List.mem_cons_of_mem a (ih h)
    · rw [if_neg hp] at h
      exact absurd h (List.not_mem_nil x)

theorem mem_of_mem_dropWhile {α : Type} {p : α → Bool} {x : α} :
    ∀ {l : List α}, x ∈ l.dropWhile p → x ∈ l := by
  intro l
  induction l with
  | nil => intro h; exact absurd h (List.not_mem_nil x)
  | cons a as ih =>
    intro h
    rw [List.dropWhile_cons] at h
    by_cases hp : p a = true
    · rw [if_pos hp] at h
      exact List.mem_cons_of_mem a (ih h)
    · rw [if_neg hp] at h
      exact h

theorem mem_of_mem_dedupKeepFirst {x : String} :
    ∀ {l : List String}, x ∈ dedupKeepFirst l → x ∈ l := by
  intro l
  induction l with
  | nil => intro h; exact absurd h (List.not_mem_nil x)
  | cons a as ih =>
    intro h
    rw [dedupKeepFirst] at h
    rcases List.mem_cons.mp h with h | h
    · exact h ▸ List.mem_cons_self a as
    · exact List.mem_cons_of_mem a (ih (List.mem_of_mem_filter h))

theorem mem_of_mem_keepFirstMatch {p : TreeSelection → Bool} {x : TreeSelection} :
    ∀ {l : List TreeSelection}, x ∈ keepFirstMatch p l → x ∈ l := by
  intro l
  induction l with
  | nil => intro h; exact absurd h (List.not_mem_nil x)
  | cons a as ih =>
    intro h
    rw [keepFirstMatch] at h
    by_cases hp : p a = true
    · rw [if_pos hp] at h
      rcases List.mem_cons.mp h with h | h
      · exact h ▸ List.mem_cons_self a as
      · exact List.mem_cons_of_mem a (List.mem_of_mem_filter h)
    · rw [if_neg hp] at h
      rcases List.mem_cons.mp h with h | h
      · exact h ▸ List.mem_cons_self a as
      · exact List.mem_cons_of_mem a (ih h)

/-! ## Validity of selection stacks -/

theorem checkNoDefaultSelection_ok_of_valid {stack : List TreeSelection}
    (h : validStack stack) : checkNoDefaultSelection stack = Except.ok stack := by
  rw [checkNoDefaultSelection, if_neg]
  intro hany
  rw [List.any_eq_true] at hany
  obtain ⟨s, hs, hcond⟩ := hany
  rcases h s hs with ht | ht <;> rw [ht] at hcond <;> simp at hcond

theorem checkNoDefaultSelection_error_of_default {stack : List TreeSelection}
    (h : hasDefaultEntry stack) :
    checkNoDefaultSelection stack = Except.error ("Unexpected DEFAULT selection type.") := by
  rw [checkNoDefaultSelection, if_pos]
  rw [List.any_eq_true]
  obtain ⟨s, hs, hcond⟩ := h
  refine ⟨s, hs, ?_⟩
  rcases hcond with ht | ht <;> rw [ht] <;> simp

theorem validStack_append {s1 s2 : List TreeSelection}
    (h1 : validStack s1) (h2 : validStack s2) : validStack (s1 ++ s2) := by
  intro s hs
  rcases List.mem_append.mp hs with h | h
  · exact h1 s h
  · exact h2 s h

theorem validStack_splitTopRange {t : Registry} {x : String} :
    ∀ {copy : List TreeSelection} {prev : Option String} {out : List TreeSelection},
    validStack copy → splitTopRange t x prev copy = some out → validStack out := by
  intro copy
  induction copy with
  | nil => intro prev out _ h; simp [splitTopRange] at h
  | cons s rest ih =>
    intro prev out hval h
    rw [splitTopRange] at h
    have hvs : validStack rest := fun a ha => hval a (List.mem_cons_of_mem s ha)
    cases hrec : splitTopRange t x (some s.node) rest with
    | some rest2 =>
      rw [hrec] at h
      cases h
      intro a ha
      rcases List.mem_cons.mp ha with h | h
      · exact h ▸ hval s (List.mem_cons_self s rest)
      · exact ih hvs hrec a h
    | none =>
      rw [hrec] at h
      by_cases hr : (s.type == some SelectionType.RANGE) = true
      · rw [if_pos hr] at h
        by_cases hc : ((selectionRange t prev s.node).contains x) = true
        · rw [if_pos hc] at h
          cases h
          intro a ha
          rcases List.mem_append.mp ha with h | h
          · obtain ⟨n, _, rfl⟩ := List.mem_map.mp h
            left; rfl
          · exact hvs a h
        · rw [if_neg hc] at h; cases h
      · rw [if_neg hr] at h; cases h

theorem validStack_mergeToggles {copy : List TreeSelection} {x : String}
    (hval : validStack copy) : validStack (mergeToggles copy x) := by
  rw [mergeToggles]
  by_cases hany :
      ((copy.reverse.takeWhile
        (fun s => !(s.type == some SelectionType.RANGE))).any
          (fun s => s.node == x)) = true
  · rw [if_pos hany]
    intro a ha
    rcases List.mem_append.mp ha with h | h
    · exact hval a (List.mem_reverse.mp
        (mem_of_mem_dropWhile (List.mem_reverse.mp h)))
    · exact hval a (List.mem_reverse.mp
        (mem_of_mem_takeWhile (List.mem_of_mem_filter (List.mem_reverse.mp h))))
  · rw [if_neg hany]
    refine validStack_append hval ?_
    intro a ha
    rcases List.mem_cons.mp ha with h | h
    · left; rw [h]
    · exact absurd h (List.not_mem_nil a)

theorem validStack_handleToggleBody {t : Registry} {copy : List TreeSelection} {x : String}
    (hval : validStack copy) : validStack (handleToggleBody t copy x) := by
  rw [handleToggleBody]
  by_cases hs : isSoleToggle copy x = true
  · rw [if_pos hs]; exact hval
  · rw [if_neg hs]
    cases hsplit : splitTopRange t x none copy with
    | some copy2 => exact validStack_splitTopRange hval hsplit
    | none => exact validStack_mergeToggles hval

theorem handleToggle_ok_of_valid {t : Registry} {stack : List TreeSelection} {x : String}
    (hval : validStack stack) :
    handleToggle t stack x = Except.ok (handleToggleBody t stack x) := by
  rw [handleToggle, checkNoDefaultSelection_ok_of_valid hval]
  rfl

theorem validStack_keepFirstMatch {p : TreeSelection → Bool} {l : List TreeSelection}
    (hval : validStack l) : validStack (keepFirstMatch p l) :=
  fun a ha => hval a (mem_of_mem_keepFirstMatch ha)

theorem validStack_rangeSingleton {x : String} :
    validStack [(⟨x, some SelectionType.RANGE⟩ : TreeSelection)] := by
  intro a ha
  rcases List.mem_cons.mp ha with h | h
  · right; rw [h]
  · exact absurd h (List.not_mem_nil a)

theorem validStack_handleRangeBody {t : Registry} {copy : List TreeSelection} {x : String}
    (hval : validStack copy) : validStack (handleRangeBody t copy x) := by
  cases hlast : copy.getLast? with
  | none =>
    simp only [handleRangeBody, hlast]
    exact validStack_rangeSingleton
  | some last =>
    by_cases hr : (last.type == some SelectionType.RANGE) = true
    · simp only [handleRangeBody, hlast, hr, if_pos]
      refine validStack_append ?_ validStack_rangeSingleton
      intro a ha
      exact hval a (List.mem_of_mem_dropLast ha)
    · simp only [handleRangeBody, hlast, hr, if_neg]
      refine validStack_append (validStack_append ?_ ?_) validStack_rangeSingleton
      · intro a ha
        exact hval a (List.mem_reverse.mp
          (mem_of_mem_dropWhile (List.mem_reverse.mp ha)))
      · intro a ha
        exact hval a (List.mem_reverse.mp
          (mem_of_mem_takeWhile (mem_of_mem_keepFirstMatch (List.mem_reverse.mp ha))))

theorem handleRange_ok_of_valid {t : Registry} {stack : List TreeSelection} {x : String}
    (hval : validStack stack) :
    handleRange t stack x = Except.ok (handleRangeBody t stack x) := by
  rw [handleRange, checkNoDefaultSelection_ok_of_valid hval]
  rfl

theorem validStack_handleDefault {x : String} : validStack (handleDefault x) := by
  intro a ha
  rw [handleDefault] at ha
  rcases List.mem_cons.mp ha with h | h
  · left; rw [h]
  · exact absurd h (List.not_mem_nil a)

theorem nextState_ok_of_valid {t : Registry} {stack : List TreeSelection}
    {sel : TreeSelection} (hval : validStack stack) :
    ∃ out, nextState t stack sel = Except.ok out ∧ validStack out := by
  rw [nextState]
  cases sel.type.getD SelectionType.DEFAULT with
  | DEFAULT => exact ⟨handleDefault sel.node, rfl, validStack_handleDefault⟩
  | TOGGLE =>
    exact ⟨handleToggleBody t stack sel.node, handleToggle_ok_of_valid hval,
      validStack_handleToggleBody hval⟩
  | RANGE =>
    exact ⟨handleRangeBody t stack sel.node, handleRange_ok_of_valid hval,
      validStack_handleRangeBody hval⟩

theorem selectedNodes_ok_of_valid {t : Registry} {stack : List TreeSelection}
    (hval : validStack stack) :
    selectedNodes t stack =
      Except.ok (dedupKeepFirst (selectedNodesRaw t stack none []).reverse) := by
  rw [selectedNodes, checkNoDefaultSelection_ok_of_valid hval]
  rfl

theorem runActions_ok_of_valid {t : Registry} :
    ∀ (sels : List TreeSelection) (stack : List TreeSelection), validStack stack →
    ∃ out, sels.foldlM (fun st sel => nextState t st sel) stack = Except.ok out ∧
      validStack out := by
  intro sels
  induction sels with
  | nil => intro stack hval; exact ⟨stack, rfl, hval⟩
  | cons sel rest ih =>
    intro stack hval
    obtain ⟨mid, hmid, hmidval⟩ := @nextState_ok_of_valid t stack sel hval
    obtain ⟨out, hout, houtval⟩ := ih mid hmidval
    refine ⟨out, ?_, houtval⟩
    rw [List.foldlM_cons, hmid]
    exact hout

theorem validStack_nil : validStack [] := fun a ha => absurd ha (List.not_mem_nil a)

theorem except_bind_ok {α β : Type} (a : α) (f : α → Except String β) :
    (Except.ok a >>= f) = f a := rfl

theorem selNodesD_of_valid {t : Registry} {stack : List TreeSelection}
    (hval : validStack stack) :
    selNodesD t stack = dedupKeepFirst (selectedNodesRaw t stack none []).reverse := by
  rw [selNodesD, selectedNodes_ok_of_valid hval]

/-! ## The service invariant: flags mirror the computed selected set -/

theorem mem_difference {l r : List String} {n : String} :
    n ∈ difference l r ↔ n ∈ l ∧ n ∉ r := by
  simp [difference]

theorem flags_after_update (oldN newN : List String) (flags : String → Bool)
    (hflags : ∀ n, flags n = oldN.contains n) (n : String) :
    (if (difference newN oldN).contains n then true
      else if (difference oldN newN).contains n then false else flags n)
      = newN.contains n := by
  have hc : ∀ (l : List String), l.contains n = true ↔ n ∈ l := fun l => by simp
  by_cases hn : n ∈ newN
  · by_cases ho : n ∈ oldN
    · rw [if_neg, if_neg]
      · rw [hflags, eq_comm]
        rw [show oldN.contains n = true from (hc oldN).mpr ho]
        exact (hc newN).mpr hn
      · intro hcont
        exact (mem_difference.mp ((hc _).mp hcont)).2 hn
      · intro hcont
        exact (mem_difference.mp ((hc _).mp hcont)).2 ho
    · rw [if_pos, eq_comm]
      · exact (hc newN).mpr hn
      · exact (hc _).mpr (mem_difference.mpr ⟨hn, ho⟩)
  · rw [if_neg, eq_comm]
    · by_cases ho : n ∈ oldN
      · rw [if_pos ((hc _).mpr (mem_difference.mpr ⟨ho, hn⟩))]
        exact Bool.eq_false_iff.mpr (fun hcont => hn ((hc newN).mp hcont))
      · rw [if_neg (fun hcont => ho (mem_difference.mp ((hc _).mp hcont)).1), hflags]
        rw [show oldN.contains n = false from
          Bool.eq_false_iff.mpr (fun hcont => ho ((hc oldN).mp hcont))]
        exact Bool.eq_false_iff.mpr (fun hcont => hn ((hc newN).mp hcont))
    · intro hcont
      exact hn (mem_difference.mp ((hc _).mp hcont)).1

theorem addSelection_preserves_inv {t : Registry} {svc : Service} (sel : TreeSelection)
    (hval : validStack svc.state)
    (hflags : ∀ n, svc.flags n = (selNodesD t svc.state).contains n) :
    ∃ svc2, addSelection t svc sel = Except.ok svc2 ∧ validStack svc2.state ∧
      ∀ n, svc2.flags n = (selNodesD t svc2.state).contains n := by
  unfold addSelection
  cases hv : t.validateNode (some sel.node) with
  | none =>
    refine ⟨svc, ?_, hval, hflags⟩
    show (match t.validateNode (some sel.node) with
      | none => pure svc
      | some _ => _) = Except.ok svc
    rw [hv]
    rfl
  | some v =>
    obtain ⟨st2, hns, hval2⟩ := @nextState_ok_of_valid t svc.state
      ⟨sel.node, some (sel.type.getD SelectionType.DEFAULT)⟩ hval
    have hold := @selectedNodes_ok_of_valid t svc.state hval
    have hnew := @selectedNodes_ok_of_valid t st2 hval2
    have hflagsc : ∀ n, svc.flags n =
        (dedupKeepFirst (selectedNodesRaw t svc.state none []).reverse).contains n := by
      intro n
      rw [hflags, selNodesD_of_valid hval]
    have haddeq : addSelection t svc sel = Except.ok
        (if (difference (dedupKeepFirst (selectedNodesRaw t svc.state none []).reverse)
              (dedupKeepFirst (selectedNodesRaw t st2 none []).reverse)).isEmpty &&
            (difference (dedupKeepFirst (selectedNodesRaw t st2 none []).reverse)
              (dedupKeepFirst (selectedNodesRaw t svc.state none []).reverse)).isEmpty then
          svc
        else
          ⟨st2,
            fun n =>
              if (difference (dedupKeepFirst (selectedNodesRaw t st2 none []).reverse)
                  (dedupKeepFirst (selectedNodesRaw t svc.state none []).reverse)).contains n
              then true
              else if (difference
                  (dedupKeepFirst (selectedNodesRaw t svc.state none []).reverse)
                  (dedupKeepFirst (selectedNodesRaw t st2 none []).reverse)).contains n
              then false
              else svc.flags n,
            svc.events ++ [dedupKeepFirst (selectedNodesRaw t st2 none []).reverse]⟩) := by
      unfold addSelection
      show (match t.validateNode (some sel.node) with
        | none => pure svc
        | some _ =>
          nextState t svc.state ⟨sel.node, some (sel.type.getD SelectionType.DEFAULT)⟩ >>=
            fun newState =>
          selectedNodes t svc.state >>= fun oldNodes =>
          selectedNodes t newState >>= fun newNodes =>
          if (difference oldNodes newNodes).isEmpty &&
              (difference newNodes oldNodes).isEmpty then
            pure svc
          else
            pure ⟨newState,
              fun n =>
                if (difference newNodes oldNodes).contains n then true
                else if (difference oldNodes newNodes).contains n then false
                else svc.flags n,
              svc.events ++ [newNodes]⟩) = _
      rw [hv]
      show (nextState t svc.state ⟨sel.node, some (sel.type.getD SelectionType.DEFAULT)⟩ >>=
          fun newState =>
        selectedNodes t svc.state >>= fun oldNodes =>
        selectedNodes t newState >>= fun newNodes =>
        if (difference oldNodes newNodes).isEmpty &&
            (difference newNodes oldNodes).isEmpty then
          pure svc
        else
          pure ⟨newState,
            fun n =>
              if (difference newNodes oldNodes).contains n then true
              else if (difference oldNodes newNodes).contains n then false
              else svc.flags n,
            svc.events ++ [newNodes]⟩) = _
      rw [hns, except_bind_ok, hold, except_bind_ok, hnew, except_bind_ok]
      split
      · rfl
      · rfl
    by_cases hcond :
        ((difference (dedupKeepFirst (selectedNodesRaw t svc.state none []).reverse)
            (dedupKeepFirst (selectedNodesRaw t st2 none []).reverse)).isEmpty &&
          (difference (dedupKeepFirst (selectedNodesRaw t st2 none []).reverse)
            (dedupKeepFirst (selectedNodesRaw t svc.state none []).reverse)).isEmpty) = true
    · rw [if_pos hcond] at haddeq
      exact ⟨svc, haddeq, hval, hflags⟩
    · rw [if_neg hcond] at haddeq
      refine ⟨_, haddeq, hval2, ?_⟩
      intro n
      show (if (difference (dedupKeepFirst (selectedNodesRaw t st2 none []).reverse)
            (dedupKeepFirst (selectedNodesRaw t svc.state none []).reverse)).contains n
          then true
          else if (difference (dedupKeepFirst (selectedNodesRaw t svc.state none []).reverse)
            (dedupKeepFirst (selectedNodesRaw t st2 none []).reverse)).contains n
          then false
          else svc.flags n) = (selNodesD t st2).contains n
      rw [selNodesD_of_valid hval2]
      exact flags_after_update _ _ svc.flags hflagsc n

/-! ## Toggle cancellation -/

theorem isSoleToggle_false_of_node_ne {st : List TreeSelection} {x : String}
    (h : ∀ s ∈ st, s.node ≠ x) : isSoleToggle st x = false := by
  match st with
  | [] => rfl
  | [s] =>
    have hs := h s (List.mem_cons_self s [])
    simp [isSoleToggle, hs]
  | a :: b :: rest => rfl

theorem splitTopRange_none_of_avoids {t : Registry} {x : String} :
    ∀ {copy : List TreeSelection} {prev : Option String},
      avoidsRanges t x prev copy = true → splitTopRange t x prev copy = none := by
  intro copy
  induction copy with
  | nil => intro prev _; rfl
  | cons s rest ih =>
    intro prev havoid
    simp only [avoidsRanges, Bool.and_eq_true] at havoid
    obtain ⟨hhead, htail⟩ := havoid
    simp only [splitTopRange, ih htail]
    by_cases hr : (s.type == some SelectionType.RANGE) = true
    · rw [if_pos hr]
      have hc : (selectionRange t prev s.node).contains x = false := by
        rw [hr] at hhead
        simpa using hhead
      simp [hc]
      simpa using hc
    · rw [if_neg hr]

theorem mergeToggles_of_not_mem {copy : List TreeSelection} {x : String}
    (h : ∀ s ∈ copy, s.node ≠ x) :
    mergeToggles copy x = copy ++ [⟨x, some SelectionType.TOGGLE⟩] := by
  rw [mergeToggles, if_neg]
  intro hany
  rw [List.any_eq_true] at hany
  obtain ⟨s, hs, hnode⟩ := hany
  exact h s (List.mem_reverse.mp (mem_of_mem_takeWhile hs)) (by simpa using hnode)

theorem avoidsRanges_append_toggle {t : Registry} {x y : String} :
    ∀ {st : List TreeSelection} {prev : Option String},
      avoidsRanges t x prev st = true →
      avoidsRanges t x prev (st ++ [⟨y, some SelectionType.TOGGLE⟩]) = true := by
  intro st
  induction st with
  | nil =>
    intro prev _
    simp [avoidsRanges]
  | cons s rest ih =>
    intro prev havoid
    simp only [avoidsRanges, Bool.and_eq_true] at havoid ⊢
    exact ⟨havoid.1, ih havoid.2⟩

theorem validStack_append_toggle {st : List TreeSelection} {x : String}
    (hval : validStack st) :
    validStack (st ++ [⟨x, some SelectionType.TOGGLE⟩]) := by
  refine validStack_append hval ?_
  intro a ha
  rcases List.mem_cons.mp ha with h | h
  · left; rw [h]
  · exact absurd h (List.not_mem_nil a)

theorem handleToggleBody_appends {t : Registry} {st : List TreeSelection} {x : String}
    (hnode : ∀ s ∈ st, s.node ≠ x) (havoid : avoidsRanges t x none st = true) :
    handleToggleBody t st x = st ++ [⟨x, some SelectionType.TOGGLE⟩] := by
  rw [handleToggleBody,
    if_neg (by rw [isSoleToggle_false_of_node_ne hnode]; exact Bool.false_ne_true),
    splitTopRange_none_of_avoids havoid]
  exact mergeToggles_of_not_mem hnode

theorem mergeToggles_cancels {st : List TreeSelection} {x : String}
    (hnode : ∀ s ∈ st, s.node ≠ x) :
    mergeToggles (st ++ [⟨x, some SelectionType.TOGGLE⟩]) x = st := by
  have hp : (fun (s : TreeSelection) => !(s.type == some SelectionType.RANGE))
      (⟨x, some SelectionType.TOGGLE⟩ : TreeSelection) = true := by simp
  simp only [mergeToggles, List.reverse_append, List.reverse_cons, List.reverse_nil,
    List.nil_append, List.singleton_append, List.takeWhile_cons, hp,
    List.dropWhile_cons, if_pos, if_true]
  rw [if_pos]
  · rw [List.filter_cons]
    have hx : (!((⟨x, some SelectionType.TOGGLE⟩ : TreeSelection).node == x)) = false := by
      simp
    rw [hx]
    simp only [Bool.false_eq_true, if_false]
    rw [List.filter_eq_self.mpr]
    · rw [← List.reverse_append, List.takeWhile_append_dropWhile, List.reverse_reverse]
    · intro s hs
      have : s.node ≠ x :=
        hnode s (List.mem_reverse.mp (mem_of_mem_takeWhile hs))
      simp [this]
  · rw [List.any_cons]
    have hx : ((⟨x, some SelectionType.TOGGLE⟩ : TreeSelection).node == x) = true := by simp
    rw [hx]
    rfl

theorem handleToggleBody_cancels {t : Registry} {st : List TreeSelection} {x : String}
    (hne : st ≠ []) (hnode : ∀ s ∈ st, s.node ≠ x)
    (havoid : avoidsRanges t x none st = true) :
    handleToggleBody t (st ++ [⟨x, some SelectionType.TOGGLE⟩]) x = st := by
  have hsole : isSoleToggle (st ++ [⟨x, some SelectionType.TOGGLE⟩]) x = false := by
    obtain ⟨a, as, rfl⟩ := List.exists_cons_of_ne_nil hne
    cases as with
    | nil => rfl
    | cons b bs => rfl
  rw [handleToggleBody, if_neg (by rw [hsole]; exact Bool.false_ne_true),
    splitTopRange_none_of_avoids (avoidsRanges_append_toggle havoid)]
  exact mergeToggles_cancels hnode

theorem not_mem_selectedNodesRaw {t : Registry} {x : String} :
    ∀ (copy : List TreeSelection) (lastSel : Option TreeSelection) (acc : List String),
      avoidsRanges t x (lastSel.map (fun s => s.node)) copy = true →
      (∀ s ∈ copy, s.node ≠ x) → x ∉ acc → x ∉ selectedNodesRaw t copy lastSel acc := by
  intro copy
  induction copy with
  | nil =>
    intro lastSel acc _ _ hacc
    simpa only [selectedNodesRaw] using hacc
  | cons s rest ih =>
    intro lastSel acc havoid hnode hacc
    simp only [avoidsRanges, Bool.and_eq_true] at havoid
    obtain ⟨hhead, htail⟩ := havoid
    rcases s with ⟨nd, ty⟩
    have hnd : nd ≠ x := hnode ⟨nd, ty⟩ (List.mem_cons_self _ _)
    have hrest : ∀ s ∈ rest, s.node ≠ x := fun s hs => hnode s (List.mem_cons_of_mem _ hs)
    cases ty with
    | none =>
      simp only [selectedNodesRaw]
      exact ih (some ⟨nd, none⟩) acc htail hrest hacc
    | some sty =>
      cases sty with
      | DEFAULT =>
        simp only [selectedNodesRaw]
        exact ih (some ⟨nd, some SelectionType.DEFAULT⟩) acc htail hrest hacc
      | TOGGLE =>
        simp only [selectedNodesRaw]
        apply ih (some ⟨nd, some SelectionType.TOGGLE⟩) _ htail hrest
        intro hmem
        rcases List.mem_append.mp hmem with h | h
        · exact hacc h
        · exact hnd (List.mem_singleton.mp h).symm
      | RANGE =>
        simp only [selectedNodesRaw]
        apply ih (some ⟨nd, some SelectionType.RANGE⟩) _ htail hrest
        intro hmem
        rcases List.mem_append.mp hmem with h | h
        · revert h
          split
          · intro h; exact hacc (List.mem_of_mem_dropLast h)
          · intro h; exact hacc h
        · simp only [Bool.not_eq_eq_eq_not, Bool.not_true, beq_self_eq_true,
            Bool.not_true, Bool.false_or] at hhead
          have hc : (selectionRange t (Option.map (fun s => s.node) lastSel) nd).contains x
              = true := by
            simpa using h
          rw [hc] at hhead
          simp at hhead

theorem not_mem_selNodesD {t : Registry} {st : List TreeSelection} {x : String}
    (hval : validStack st) (hnode : ∀ s ∈ st, s.node ≠ x)
    (havoid : avoidsRanges t x none st = true) :
    x ∉ selNodesD t st := by
  rw [selNodesD_of_valid hval]
  intro hmem
  exact not_mem_selectedNodesRaw st none [] havoid hnode (List.not_mem_nil x)
    (List.mem_reverse.mp (mem_of_mem_dedupKeepFirst hmem))

theorem runService_inv (t : Registry) :
    ∀ (sels : List TreeSelection) (svc : Service), validStack svc.state →
      (∀ n, svc.flags n = (selNodesD t svc.state).contains n) →
      ∃ svc2, sels.foldlM (addSelection t) svc = Except.ok svc2 ∧
        validStack svc2.state ∧
        ∀ n, svc2.flags n = (selNodesD t svc2.state).contains n := by
  intro sels
  induction sels with
  | nil => intro svc hval hflags; exact ⟨svc, rfl, hval, hflags⟩
  | cons sel rest ih =>
    intro svc hval hflags
    obtain ⟨mid, hmid, hmidval, hmidflags⟩ := addSelection_preserves_inv sel hval hflags
    obtain ⟨out, hout, houtval, houtflags⟩ := ih mid hmidval hmidflags
    refine ⟨out, ?_, houtval, houtflags⟩
    rw [List.foldlM_cons, hmid]
    exact hout

/-! ## Claim theorems -/

/-- C6: starting from a tree whose nodes all have `selected === false`,
after any sequence of `addSelection` calls the service's `selected` flags
are exactly the membership predicate of the state machine's computed
selected set: a node's flag is `true` iff the node is in `selectedNodes()`
of the held state. -/
theorem selected_flags_mirror_selected_set (t : Registry) (sels : List TreeSelection) :
    ∃ svc, runService t sels = Except.ok svc ∧
      ∀ n, svc.flags n = (selNodesD t svc.state).contains n := by
  obtain ⟨svc, hrun, _, hflags⟩ :=
    runService_inv t sels initService validStack_nil (fun n => rfl)
  exact ⟨svc, hrun, hflags⟩

/-- C1 counterexample: on the mock tree, `toggle(1); toggle(1)` as the very
first selection actions on the empty state leaves node `1` selected — the
sole-selection guard of `handleToggle` makes the second toggle a no-op, so
the selected set after the double toggle still contains `1`, contradicting
the claim that it never does. -/
theorem toggle_twice_on_empty_keeps_node :
    runActions mockTree [tog ("1"), tog ("1")] = Except.ok [tog ("1")] ∧
    selectedNodes mockTree [tog ("1")] = Except.ok ["1"] ∧
    "1" ∈ selNodesD mockTree [tog ("1")] := by
  refine ⟨rfl, rfl, ?_⟩
  decide

/-- C1 (amended): two consecutive `TOGGLE` actions of a node X (no `RANGE`
in between) remove X from the selection history entirely — the stack returns
to its previous value and the selected set excludes X — provided the prior
history is nonempty and does not already involve X (no entry references X
and X lies in no range of the stack).  The original claim's empty-state case
is excluded: there the second toggle hits the sole-selection no-op guard and
X stays selected (see the counterexample). -/
theorem toggle_twice_cancels_amended (t : Registry) (st : List TreeSelection)
    (x : String) (hval : validStack st) (hne : st ≠ [])
    (hnode : ∀ s ∈ st, s.node ≠ x)
    (havoid : avoidsRanges t x none st = true) :
    (nextState t st ⟨x, some SelectionType.TOGGLE⟩ >>= fun s1 =>
      nextState t s1 ⟨x, some SelectionType.TOGGLE⟩) = Except.ok st ∧
    x ∉ selNodesD t st := by
  have h1 : nextState t st ⟨x, some SelectionType.TOGGLE⟩ =
      Except.ok (st ++ [⟨x, some SelectionType.TOGGLE⟩]) := by
    show handleToggle t st x = _
    rw [handleToggle_ok_of_valid hval, handleToggleBody_appends hnode havoid]
  have h2 : nextState t (st ++ [⟨x, some SelectionType.TOGGLE⟩])
      ⟨x, some SelectionType.TOGGLE⟩ = Except.ok st := by
    show handleToggle t _ x = _
    rw [handleToggle_ok_of_valid (validStack_append_toggle hval),
      handleToggleBody_cancels hne hnode havoid]
  constructor
  · rw [h1, except_bind_ok, h2]
  · exact not_mem_selNodesD hval hnode havoid

/-- Witness for the amended C1: on the mock tree with prior history
`toggle(1.1)`, toggling `1.2` twice restores the history and leaves `1.2`
unselected. -/
theorem toggle_twice_cancels_amended_witness :
    validStack [tog ("1.1")] ∧ [tog ("1.1")] ≠ ([] : List TreeSelection) ∧
    (∀ s ∈ [tog ("1.1")], s.node ≠ ("1.2" : String)) ∧
    avoidsRanges mockTree ("1.2") none [tog ("1.1")] = true ∧
    ((nextState mockTree [tog ("1.1")] ⟨"1.2", some SelectionType.TOGGLE⟩ >>= fun s1 =>
      nextState mockTree s1 ⟨"1.2", some SelectionType.TOGGLE⟩) =
        Except.ok [tog ("1.1")] ∧
      ("1.2" : String) ∉ selNodesD mockTree [tog ("1.1")]) :=
  ⟨by decide, by decide, by decide, by decide,
    toggle_twice_cancels_amended mockTree [tog ("1.1")] ("1.2") (by decide) (by decide)
      (by decide) (by decide)⟩

/-- C2: with a stack holding exactly one `TOGGLE` entry for a node, a
`TOGGLE` `nextState` of that same node is a no-op — the resulting state has
the same stack and `selectedNodes` still holds exactly that node. -/
theorem toggle_sole_selection_idempotent (t : Registry) (x : String) :
    nextState t [⟨x, some SelectionType.TOGGLE⟩] ⟨x, some SelectionType.TOGGLE⟩ =
      Except.ok [⟨x, some SelectionType.TOGGLE⟩] ∧
    selectedNodes t [⟨x, some SelectionType.TOGGLE⟩] = Except.ok [x] := by
  have hval : validStack [(⟨x, some SelectionType.TOGGLE⟩ : TreeSelection)] := by
    intro a ha
    rcases List.mem_cons.mp ha with h | h
    · left; rw [h]
    · exact absurd h (List.not_mem_nil a)
  have hsole : isSoleToggle [⟨x, some SelectionType.TOGGLE⟩] x = true := by
    simp [isSoleToggle]
  constructor
  · show handleToggle t [⟨x, some SelectionType.TOGGLE⟩] x =
      Except.ok [⟨x, some SelectionType.TOGGLE⟩]
    rw [handleToggle_ok_of_valid hval, handleToggleBody, if_pos hsole]
  · rw [selectedNodes_ok_of_valid hval]
    rfl

/-- C3: on the mock fixture tree, the sequence
`toggle(1.1); toggle(1.1.2); toggle(1.2.1.1); toggle(1.2); range(1.3)`
starting from the empty state yields exactly the most-recent-first selected
list `1.3, 1.2.3, 1.2.2, 1.2.1.2, 1.2.1.1, 1.2.1, 1.2, 1.1.2, 1.1` (the
provisional toggle of `1.2` is superseded by the range to `1.3`). -/
theorem selection_state_test01 :
    (runActions mockTree
        [tog ("1.1"), tog ("1.1.2"), tog ("1.2.1.1"), tog ("1.2"), rng ("1.3")]).bind
      (selectedNodes mockTree) =
      Except.ok ["1.3", "1.2.3", "1.2.2", "1.2.1.2", "1.2.1.1", "1.2.1", "1.2",
        "1.1.2", "1.1"] := by
  rfl

/-- C4: a second consecutive `RANGE` replaces the previous one: concretely
`toggle(1.1); toggle(1.2.1.1); range(1.2.3); range(1.2.1.2)` on the fixture
yields `1.2.1.2, 1.2.1.1, 1.1`; in general, whenever the top of a valid
stack is a `RANGE` entry, a `RANGE` `nextState` pops it before pushing the
new `RANGE` entry. -/
theorem range_replaces_previous_range :
    ((runActions mockTree
        [tog ("1.1"), tog ("1.2.1.1"), rng ("1.2.3"), rng ("1.2.1.2")]).bind
      (selectedNodes mockTree) =
      Except.ok ["1.2.1.2", "1.2.1.1", "1.1"]) ∧
    (∀ (t : Registry) (stack : List TreeSelection) (last : TreeSelection) (n : String),
      validStack stack → stack.getLast? = some last →
      last.type = some SelectionType.RANGE →
      nextState t stack ⟨n, some SelectionType.RANGE⟩ =
        Except.ok (stack.dropLast ++ [⟨n, some SelectionType.RANGE⟩])) := by
  constructor
  · rfl
  · intro t stack last n hval hlast hr
    show handleRange t stack n =
      Except.ok (stack.dropLast ++ [⟨n, some SelectionType.RANGE⟩])
    rw [handleRange_ok_of_valid hval]
    simp only [handleRangeBody, hlast, hr]
    rfl

/-- Witness for C4: applying the general pop-and-replace part at the
concrete valid stack `toggle(1.1); range(1.3)` with a new range to `1.2`. -/
theorem range_replaces_previous_range_witness :
    validStack [tog ("1.1"), rng ("1.3")] ∧
    nextState mockTree [tog ("1.1"), rng ("1.3")] ⟨"1.2", some SelectionType.RANGE⟩ =
      Except.ok ([tog ("1.1"), rng ("1.3")].dropLast ++
        [⟨"1.2", some SelectionType.RANGE⟩]) :=
  ⟨by decide, range_replaces_previous_range.2 mockTree [tog ("1.1"), rng ("1.3")]
    (rng ("1.3")) "1.2" (by decide) rfl rfl⟩

/-- C5: a `DEFAULT` `nextState` discards all history — for every state and
node the new stack is exactly the single `TOGGLE` entry of that node; in
particular `toggle(1); toggle(1.1); default(1.2)` on the fixture yields
exactly the selected list `1.2`. -/
theorem default_resets_history :
    (∀ (t : Registry) (stack : List TreeSelection) (n : String),
      nextState t stack ⟨n, some SelectionType.DEFAULT⟩ =
        Except.ok [⟨n, some SelectionType.TOGGLE⟩]) ∧
    ((runActions mockTree [tog ("1"), tog ("1.1"), dfl ("1.2")]).bind
      (selectedNodes mockTree) = Except.ok ["1.2"]) := by
  constructor
  · intro t stack n
    rfl
  · rfl

/-- C7: `addSelection` with a node that does not validate against the
current tree index is a complete no-op: the service — its held selection
state, every `selected` flag and its fired-event list — is returned
unchanged. -/
theorem addSelection_invalid_node_noop (t : Registry) (svc : Service)
    (sel : TreeSelection) (h : t.validateNode (some sel.node) = none) :
    addSelection t svc sel = Except.ok svc := by
  unfold addSelection
  show (match t.validateNode (some sel.node) with
    | none => pure svc
    | some _ => _) = Except.ok svc
  rw [h]
  rfl

/-- Witness for C7: a node id absent from the mock tree makes `addSelection`
return the freshly initialized service unchanged. -/
theorem addSelection_invalid_node_noop_witness :
    mockTree.validateNode (some ("ghost")) = none ∧
    addSelection mockTree initService (tog ("ghost")) = Except.ok initService :=
  ⟨by decide, addSelection_invalid_node_noop mockTree initService (tog ("ghost"))
    (by decide)⟩

/-- C8: every state reachable from the empty state through `nextState` has a
stack of only `TOGGLE`/`RANGE` entries (no `DEFAULT`, no `undefined` type),
so `nextState` never throws along the way and `selectedNodes` succeeds on
it; conversely `selectedNodes` on any stack holding a `DEFAULT`-like entry
throws. -/
theorem reachable_stacks_never_default :
    (∀ (t : Registry) (sels : List TreeSelection), ∃ st,
      runActions t sels = Except.ok st ∧ validStack st ∧
      ∃ l, selectedNodes t st = Except.ok l) ∧
    (∀ (t : Registry) (st : List TreeSelection), hasDefaultEntry st →
      selectedNodes t st = Except.error ("Unexpected DEFAULT selection type.")) := by
  constructor
  · intro t sels
    obtain ⟨out, hout, houtval⟩ := runActions_ok_of_valid sels [] validStack_nil
    exact ⟨out, hout, houtval, _, selectedNodes_ok_of_valid houtval⟩
  · intro t st h
    rw [selectedNodes, checkNoDefaultSelection_error_of_default h]
    rfl

/-- Witness for C8: the converse part applied to a concrete stack holding a
`DEFAULT` entry. -/
theorem reachable_stacks_never_default_witness :
    hasDefaultEntry [dfl ("1")] ∧
    selectedNodes mockTree [dfl ("1")] =
      Except.error ("Unexpected DEFAULT selection type.") :=
  ⟨by decide, reachable_stacks_never_default.2 mockTree [dfl ("1")] (by decide)⟩

/-- C9: whenever a refresh resolves its parent to a valid (composite) node,
the `onNodeRefreshed(parent)` event appears in the refresh's event trace
immediately before its accompanying `onChanged` event — never after it and
never alone. -/
theorem nodeRefreshed_fires_before_changed (t : Registry) (raw : Option String)
    (p : String) (h : resolveParent t raw = some p) :
    ∃ k, (refreshTrace t raw).get? k = some (TreeEvent.nodeRefreshed p) ∧
      (refreshTrace t raw).get? (k + 1) = some TreeEvent.changed := by
  refine ⟨1, ?_, ?_⟩ <;>
    simp [refreshTrace, h, fireNodeRefreshedTrace]

/-- Witness for C9: refreshing the valid composite node `1.2` of the mock
tree. -/
theorem nodeRefreshed_fires_before_changed_witness :
    resolveParent mockTree (some ("1.2")) = some ("1.2") ∧
    (∃ k, (refreshTrace mockTree (some ("1.2"))).get? k =
        some (TreeEvent.nodeRefreshed ("1.2")) ∧
      (refreshTrace mockTree (some ("1.2"))).get? (k + 1) = some TreeEvent.changed) :=
  ⟨by decide, nodeRefreshed_fires_before_changed mockTree (some ("1.2")) ("1.2")
    (by decide)⟩

/-- C10: the node lookups are total on an absent argument — both
`getNode(undefined)` and `validateNode(undefined)` return `undefined` (they
are pure functions of the tree, so nothing is mutated and nothing throws). -/
theorem getNode_validateNode_total_on_undefined (t : Registry) :
    t.getNode none = none ∧ t.validateNode none = none :=
  ⟨rfl, rfl⟩

end Theia
